import Mathlib

/-!
Verification development for a single-site web crawler/scraper
(`beaming_bog.py`).  The Python program is shallowly embedded: Python
strings are modelled as lists of Unicode code points (`List Nat`),
dictionaries as association lists in insertion order, the HTTP layer as a
function from URL to an optional abstract `Page`, and the two worker-pool
passes as a fuel-indexed sequential transition function (the source
serializes every visited-set check-and-mark, every row append and every
header merge under locks, so any interleaving is some serialization of
those critical sections).
-/

/-- A Python string, modelled as its list of Unicode code points. -/
abbrev PyStr := List Nat

/-- Code points of a Lean string literal, used to write concrete Python strings. -/
def str (s : String) : PyStr := s.data.map Char.toNat

/-- ASCII lower-casing of one code point, modelling `str.lower` on the
ASCII URLs this program manipulates. -/
def lowerCode (c : Nat) : Nat := if 65 ≤ c ∧ c ≤ 90 then c + 32 else c

/-- Python string equality test (`==` / `in set` comparisons). -/
def eqStr : PyStr → PyStr → Bool
  | [], [] => true
  | a :: s, b :: t => a == b && eqStr s t
  | _, _ => false

/-- Python `str.startswith` / anchored `re.match` of a literal. -/
def begins : PyStr → PyStr → Bool
  | _, [] => true
  | [], _ :: _ => false
  | a :: s, b :: t => a == b && begins s t

/-- Python substring containment `needle in hay`. -/
def strHasSub (needle : PyStr) : PyStr → Bool
  | [] => needle.isEmpty
  | a :: s => begins (a :: s) needle || strHasSub needle s

/-- Python single-character containment `c in hay`. -/
def hasChar (hay : PyStr) (c : Nat) : Bool := hay.any (fun x => x == c)

/-- Python `str.endswith`. -/
def endsWith (hay needle : PyStr) : Bool := begins hay.reverse needle.reverse

/-- Membership of a string in a Python set/list of strings. -/
def containsStr (cs : List PyStr) (c : PyStr) : Bool := cs.any (fun x => eqStr x c)

/-! ## URL normalizer (`normalize_url`, `get_domain`, `sanitise_url`,
`is_pagination_link` and the link filter of `scrape_page`) -/

/-- `url.lower().rstrip('/')`, the trailing-slash strip part. -/
def rstripSlash (u : PyStr) : PyStr := (u.reverse.dropWhile (fun c => c == 47)).reverse

/-- `normalize_url(url): return url.lower().rstrip('/')`. -/
def normalize_url (u : PyStr) : PyStr := rstripSlash (u.map lowerCode)

/-- Scheme characters after the first, per RFC 3986 as implemented by
`urllib.parse` (letters, digits, `+`, `-`, `.`); inputs here are already
lower-cased by `normalize_url`. -/
def isSchemeChar (c : Nat) : Bool :=
  (97 ≤ c && c ≤ 122) || (65 ≤ c && c ≤ 90) || (48 ≤ c && c ≤ 57) || c == 43 || c == 45 || c == 46

/-- ASCII letter test. -/
def isAlphaCode (c : Nat) : Bool := (65 ≤ c && c ≤ 90) || (97 ≤ c && c ≤ 122)

/-- Split a string at its first `:`; `none` when there is no colon. -/
def splitColon : PyStr → Option (PyStr × PyStr)
  | [] => none
  | c :: cs =>
    if c == 58 then some ([], cs)
    else (splitColon cs).map (fun p => (c :: p.1, p.2))

/-- A non-empty scheme: a letter followed by scheme characters. -/
def validScheme (s : PyStr) : Bool :=
  match s with
  | [] => false
  | c :: cs => isAlphaCode c && cs.all isSchemeChar

/-- Modelled from `urllib.parse.urlparse`: the `scheme` component and the
remainder of the URL.  A URL with no parseable scheme has scheme `''`. -/
def parseSchemeRest (u : PyStr) : PyStr × PyStr :=
  match splitColon u with
  | some (sch, rest) => if validScheme sch then (sch.map lowerCode, rest) else ([], u)
  | none => ([], u)

/-- Modelled from `urllib.parse.urlparse`: the `netloc` component of what
follows the scheme — present only after a `//`, ending at `/`, `?` or `#`. -/
def takeNetloc (rest : PyStr) : PyStr :=
  if rest.take 2 == [47, 47] then
    (rest.drop 2).takeWhile (fun c => !(c == 47 || c == 63 || c == 35))
  else []

/-- `get_domain(url)`: `'{uri.scheme}://{uri.netloc}'` of `urlparse(url)`. -/
def get_domain (u : PyStr) : PyStr :=
  let p := parseSchemeRest u
  p.1 ++ (58 :: 47 :: 47 :: takeNetloc p.2)

/-- `sanitise_url(url)`: prepend `http://` when `re.match(r'http(s?)://', url)`
fails, then `normalize_url`.  The function is total: it returns a normalized
string for every input and raises nothing. -/
def sanitise_url (url : PyStr) : PyStr :=
  normalize_url
    (if begins url (str "http://") || begins url (str "https://") then url
     else str "http://" ++ url)

/-- The pagination markers of `is_pagination_link` (all regex-literal
alternatives of the joined pattern). -/
def PAGINATION_PATTERNS : List PyStr :=
  [str "?page=", str "?p=", str "?pg=", str "?pagenumber=", str "?start=", str "?offset=",
   str "/page/", str "/p/", str "/pages/", str "#page="]

/-- `is_pagination_link(link)`: `re.search` of the alternation of the
literal pagination patterns. -/
def is_pagination_link (link : PyStr) : Bool :=
  PAGINATION_PATTERNS.any (fun p => strHasSub p link)

/-- `EXCLUDED_EXTENSIONS` from the source. -/
def EXCLUDED_EXTENSIONS : List PyStr :=
  [str "png", str "jpg", str "jpeg", str "gif", str "webp", str "pdf",
   str "docx", str "xlsx", str "zip", str "rar"]

/-- The excluded path substrings of the link filter. -/
def EXCLUDED_PATHS : List PyStr := [str "cart", str "search", str "terms-of-service"]

/-- The link-retention test of `scrape_page` (lines 61–64): domain equality,
no excluded extension occurring as a substring, no excluded path substring,
and no `#` anywhere. -/
def link_ok (link domain : PyStr) : Bool :=
  eqStr (get_domain link) domain
  && !(EXCLUDED_EXTENSIONS.any (fun e => strHasSub e link))
  && !(EXCLUDED_PATHS.any (fun p => strHasSub p link))
  && !(hasChar link 35)

/-- The link-retention test as the spec claim words it (claim C4): the
extension test is *ends-with* rather than substring containment. -/
def link_ok_claim (link domain : PyStr) : Bool :=
  eqStr (get_domain link) domain
  && !(hasChar link 35)
  && !(EXCLUDED_EXTENSIONS.any (fun e => endsWith link e))
  && !(EXCLUDED_PATHS.any (fun p => strHasSub p link))

/-! ## Page fetcher & extractor (`scrape_page`) -/

/-- A dictionary value: Python mixes strings (`URL`, texts) and the integer
status code in `page_data`. -/
inductive Val where
  | s : PyStr → Val
  | n : Nat → Val
deriving DecidableEq

/-- `page_data`: a Python dict in insertion order with unique keys. -/
abbrev Record := List (PyStr × Val)

/-- The observable content of one HTTP response, as `scrape_page` reads it:
whether `'text/html' in response.headers.get('Content-Type','')`, the status
code, `soup.title.string`, the `content` of `<meta name="description">`,
the `.text` of each `h1` and `h2` in document order, and each anchor `href`. -/
structure Page where
  isHtml : Bool
  status : Nat
  title : Option PyStr
  metaDesc : Option PyStr
  h1s : List PyStr
  h2s : List PyStr
  hrefs : List PyStr
deriving DecidableEq

/-- The network: `requests.get` either yields a response (`some`) or raises
(timeout, connection error, DNS failure — `none`). -/
abbrev Web := PyStr → Option Page

/-- `urllib.parse.urljoin`, a library function outside this repository; the
crawl model is parameterized over it. -/
abbrev Resolver := PyStr → PyStr → PyStr

/-- Python whitespace test for `str.strip`. -/
def isSpc (c : Nat) : Bool := c == 32 || c == 9 || c == 10 || c == 13 || c == 11 || c == 12

/-- `str.strip()`. -/
def pyStrip (s : PyStr) : PyStr := ((s.dropWhile isSpc).reverse.dropWhile isSpc).reverse

/-- Python `enumerate(tags, 1)`. -/
def enumFrom : Nat → List PyStr → List (Nat × PyStr)
  | _, [] => []
  | i, a :: l => (i, a) :: enumFrom (i + 1) l

/-- Digit list of a natural number, fuel-indexed so it reduces by `rfl`. -/
def natReprAux : Nat → Nat → PyStr
  | 0, _ => []
  | fuel + 1, n => if n < 10 then [48 + n] else natReprAux fuel (n / 10) ++ [48 + n % 10]

/-- Decimal digit string of a natural number (Python `f'{i}'`). -/
def natRepr (n : Nat) : PyStr := natReprAux (n + 1) n

/-- The heading field name `f'{h_tag} - {i}'`, e.g. `H1 - 3`. -/
def hname (lvl i : Nat) : PyStr := 72 :: (natRepr lvl ++ (32 :: 45 :: 32 :: natRepr i))

/-- `soup.title.string.strip() if soup.title else ''`. -/
def titleVal (p : Page) : PyStr :=
  match p.title with
  | some t => pyStrip t
  | none => []

/-- The stripped meta-description `content`, or `''` when the tag is absent. -/
def metaVal (p : Page) : PyStr :=
  match p.metaDesc with
  | some m => pyStrip m
  | none => []

/-- `page_data` as built by `scrape_page` (lines 46–56): `URL` and
`Status code` first, then one field per `h1`/`h2` occurrence (1-indexed,
stripped), then `Title` and `META Description` appended by `dict.update`. -/
def build_record (url : PyStr) (p : Page) : Record :=
  (str "URL", Val.s url) :: (str "Status code", Val.n p.status) ::
  ((enumFrom 1 (p.h1s.map pyStrip)).map (fun e => (hname 1 e.1, Val.s e.2))
   ++ (enumFrom 1 (p.h2s.map pyStrip)).map (fun e => (hname 2 e.1, Val.s e.2))
   ++ [(str "Title", Val.s (titleVal p)), (str "META Description", Val.s (metaVal p))])

/-- Dictionary lookup `page_data[key]` (keys are unique, so first match). -/
def rlookup : Record → PyStr → Option Val
  | [], _ => none
  | (k, v) :: r, key => if eqStr k key then some v else rlookup r key

/-- `page_data.keys()`. -/
def recordKeys (r : Record) : List PyStr := r.map (fun kv => kv.1)

/-- `all_headers.update(page_data.keys())` — set union, modelled as an
insertion-ordered duplicate-free list. -/
def unionKeys (hs : List PyStr) (ks : List PyStr) : List PyStr :=
  ks.foldl (fun acc k => if containsStr acc k then acc else acc ++ [k]) hs

/-- `page_data['Status code'] == 429`. -/
def statusIs429 (r : Record) : Bool :=
  match rlookup r (str "Status code") with
  | some (Val.n n) => n == 429
  | _ => false

/-- `scrape_page(url, domain)`: `(None, [])` on a fetch exception or a
non-HTML content type; otherwise the record plus every anchor href resolved
against `url`, normalized, and filtered by `link_ok`. -/
def scrape_page (web : Web) (resolve : Resolver) (url domain : PyStr) :
    Option Record × List PyStr :=
  match web url with
  | none => (none, [])
  | some p =>
    if !p.isHtml then (none, [])
    else
      (some (build_record url p),
       (p.hrefs.map (fun h => normalize_url (resolve url h))).filter
         (fun l => link_ok l domain))

/-! ## Frontier & crawl coordinator (`main`'s `worker` and `process_url`)

The source guards the visited-set check-and-mark, the row append and the
header merge with locks, so every concurrent execution is a serialization
of these steps; the model below is that serialized transition system,
with a ghost `fetched` log recording each URL passed to `scrape_page`. -/

/-- The mutable crawl state of `main`: `visited_urls`, `to_visit_urls`,
`retry_urls`, `all_rows`, `all_headers`, plus the ghost fetch log. -/
structure CrawlState where
  visited : List PyStr
  queue : List PyStr
  retry : List PyStr
  rows : List Record
  headers : List PyStr
  fetched : List PyStr
deriving DecidableEq

/-- `process_url(current_url)` (lines 90–109): skip pagination links;
otherwise fetch (logged in `fetched`); on a record, merge its keys into
`all_headers`; a 429 goes to `retry_urls`, anything else is appended to
`all_rows` and its links not yet visited are enqueued. -/
def process_url (web : Web) (resolve : Resolver) (domain u : PyStr)
    (s : CrawlState) : CrawlState :=
  if is_pagination_link u then s
  else
    match scrape_page web resolve u domain with
    | (none, _) => { s with fetched := s.fetched ++ [u] }
    | (some pd, links) =>
      let s2 := { s with fetched := s.fetched ++ [u],
                         headers := unionKeys s.headers (recordKeys pd) }
      if statusIs429 pd then { s2 with retry := s2.retry ++ [u] }
      else
        { s2 with rows := s2.rows ++ [pd],
                  queue := s2.queue ++ links.filter (fun l => !(containsStr s2.visited l)) }

/-- `worker()` (lines 111–124): dequeue with a timeout (an empty queue ends
the loop), atomically check-and-mark the visited set, then `process_url`.
Fuel-indexed; every pass of the source is `worker` with enough fuel. -/
def worker (web : Web) (resolve : Resolver) (domain : PyStr) :
    Nat → CrawlState → CrawlState
  | 0, s => s
  | fuel + 1, s =>
    match s.queue with
    | [] => s
    | u :: rest =>
      if containsStr s.visited u then
        worker web resolve domain fuel { s with queue := rest }
      else
        worker web resolve domain fuel
          (process_url web resolve domain u
            { s with queue := rest, visited := s.visited ++ [u] })

/-- The initial state of `main`: the sanitized seed in the queue and the
four mandatory column names in `all_headers` (line 81 order). -/
def initState (start : PyStr) : CrawlState :=
  { visited := [], queue := [start], retry := [],
    rows := [], headers := [str "URL", str "Title", str "META Description", str "Status code"],
    fetched := [] }

/-- The whole crawl of `main` (lines 77–139): pass 1 from the seed, then,
when `retry_urls` is non-empty, its URLs are re-put on the same queue and a
second pool drains it against the *same* visited set.  Returns the state
after pass 1 and the state after pass 2. -/
def crawl (web : Web) (resolve : Resolver) (start : PyStr) (fuel1 fuel2 : Nat) :
    CrawlState × CrawlState :=
  let domain := get_domain start
  let s1 := worker web resolve domain fuel1 (initState start)
  let s2 :=
    if s1.retry.isEmpty then s1
    else worker web resolve domain fuel2 { s1 with queue := s1.queue ++ s1.retry }
  (s1, s2)

/-! ## Output schema (`column_order`, lines 145–147) -/

/-- The four fixed leading columns of the report. -/
def fixedCols : List PyStr :=
  [str "Status code", str "URL", str "Title", str "META Description"]

/-- `x.split('-')[0]`: the text before the first `-`. -/
def piece0 (x : PyStr) : PyStr := x.takeWhile (fun c => !(c == 45))

/-- `x.split('-')[1]`: the text between the first and second `-`. -/
def piece1 (x : PyStr) : PyStr :=
  ((x.dropWhile (fun c => !(c == 45))).drop 1).takeWhile (fun c => !(c == 45))

/-- `startswith('H')`. -/
def headIsH : PyStr → Bool
  | 72 :: _ => true
  | _ => false

/-- The digit-fold of Python `int`. -/
def parseDigits (s : PyStr) : Nat := s.foldl (fun a c => a * 10 + (c - 48)) 0

/-- Modelled from Python `int(s)` on the whitespace-padded digit strings the
sort key applies it to: strip whitespace, then read the decimal digits. -/
def pyInt (s : PyStr) : Nat := parseDigits (pyStrip s)

/-- The sort key of line 147:
`(x.split('-')[0], int(x.split('-')[1]))` when `'-' in x` and
`x.split('-')[0].startswith('H')`, else `(x, 0)`. -/
def pyKey (x : PyStr) : PyStr × Nat :=
  if hasChar x 45 && headIsH (piece0 x) then (piece0 x, pyInt (piece1 x)) else (x, 0)

/-- Python lexicographic `<` on strings (code-point order). -/
def strLt : PyStr → PyStr → Bool
  | [], [] => false
  | [], _ :: _ => true
  | _ :: _, [] => false
  | a :: s, b :: t => if a < b then true else if b < a then false else strLt s t

/-- Python `<=` on the `(str, int)` key tuples, i.e. the sort order of
`sorted(..., key=...)`. -/
def keyLe (a b : PyStr) : Bool :=
  strLt (pyKey a).1 (pyKey b).1
  || (eqStr (pyKey a).1 (pyKey b).1 && Nat.ble (pyKey a).2 (pyKey b).2)

/-- Insertion of one element into a sorted list. -/
def insertLe (le : PyStr → PyStr → Bool) (a : PyStr) : List PyStr → List PyStr
  | [] => [a]
  | b :: l => if le a b then a :: b :: l else b :: insertLe le a l

/-- Python `sorted`, embedded as an insertion sort (the keys occurring here
are distinct, so any correct sort computes the same list). -/
def sortLe (le : PyStr → PyStr → Bool) : List PyStr → List PyStr
  | [] => []
  | a :: l => insertLe le a (sortLe le l)

/-- `column_order` (lines 145–147): the four fixed columns, then every other
observed header sorted by the key of line 147.  The argument lists
`all_headers` in an arbitrary iteration order. -/
def column_order (headers : List PyStr) : List PyStr :=
  fixedCols ++ sortLe keyLe (headers.filter (fun c => !(containsStr fixedCols c)))

/-- The heading order named by the spec: tag level, then numeric occurrence
index. -/
def pairLe (p q : Nat × Nat) : Bool :=
  Nat.blt p.1 q.1 || (p.1 == q.1 && Nat.ble p.2 q.2)

/-- Insertion into a sorted list of `(level, index)` pairs. -/
def insertPair (a : Nat × Nat) : List (Nat × Nat) → List (Nat × Nat)
  | [] => [a]
  | b :: l => if pairLe a b then a :: b :: l else b :: insertPair a l

/-- Sorting `(level, index)` pairs by `pairLe`. -/
def sortPairs : List (Nat × Nat) → List (Nat × Nat)
  | [] => []
  | a :: l => insertPair a (sortPairs l)

/-! ## Concrete fixtures for witnesses and counterexamples -/

/-- A resolver for test webs whose hrefs are already absolute (`urljoin`
returns an absolute href unchanged). -/
def rid : Resolver := fun _ h => h

/-- A one-page web. -/
def mkWeb (u : PyStr) (p : Page) : Web := fun v => if eqStr v u then some p else none

/-- An HTML page answering 429, with one `h1`. -/
def pg429 : Page :=
  { isHtml := true, status := 429, title := some (str "T"), metaDesc := none,
    h1s := [str "Busy"], h2s := [], hrefs := [] }

/-- A web whose only page, the seed, rate-limits. -/
def web429 : Web := mkWeb (str "http://a.com") pg429

/-- An HTML page with no `<title>` and no meta description. -/
def pgBare : Page :=
  { isHtml := true, status := 200, title := none, metaDesc := none,
    h1s := [], h2s := [], hrefs := [] }

/-- A web serving only the bare page at the seed. -/
def webBare : Web := mkWeb (str "http://a.com") pgBare

/-- An HTML page whose single link contains `zip` as an interior substring. -/
def pgZipper : Page :=
  { isHtml := true, status := 200, title := some (str "Z"), metaDesc := none,
    h1s := [], h2s := [], hrefs := [str "http://a.com/zipper"] }

/-- A web serving the zipper-link page at the seed. -/
def webZipper : Web := mkWeb (str "http://a.com") pgZipper

/-- A successful HTML page with one same-domain link. -/
def pgHome : Page :=
  { isHtml := true, status := 200, title := some (str "Home"), metaDesc := some (str "D"),
    h1s := [str "Welcome"], h2s := [], hrefs := [str "http://a.com/b"] }

/-- A web with a successful seed page whose outgoing link fails to fetch. -/
def webHome : Web := fun v => if eqStr v (str "http://a.com") then some pgHome else none

/-- The record the crawl of `webHome` produces for the seed. -/
def recHome : Record := build_record (str "http://a.com") pgHome

/-- Number of occurrences of a URL in a list (e.g. in the fetch log). -/
def countStr (u : PyStr) (l : List PyStr) : Nat := (l.filter (fun x => eqStr x u)).length

/-- Pass-local dedup invariant: the ghost fetch log is duplicate-free and
every fetched URL is in the visited set. -/
def fetchInv (s : CrawlState) : Prop :=
  s.fetched.Nodup ∧ ∀ u ∈ s.fetched, u ∈ s.visited

/-- Domain-containment invariant: every queued and every retry URL has the
seed's domain, and every stored row's `URL` field does. -/
def domInv (d : PyStr) (s : CrawlState) : Prop :=
  (∀ u ∈ s.queue, get_domain u = d) ∧
  (∀ u ∈ s.retry, get_domain u = d) ∧
  (∀ r ∈ s.rows, ∃ u, rlookup r (str "URL") = some (Val.s u) ∧ get_domain u = d)

/-! # Theorems -/

/-! ## Basic string lemmas -/

theorem eqStr_iff : ∀ s t : PyStr, eqStr s t = true ↔ s = t := by
  intro s
  induction s with
  | nil => intro t; cases t <;> simp [eqStr]
  | cons a s ih =>
    intro t
    cases t with
    | nil => simp [eqStr]
    | cons b t => simp [eqStr, ih]

theorem containsStr_iff (cs : List PyStr) (c : PyStr) :
    containsStr cs c = true ↔ c ∈ cs := by
  simp [containsStr, List.any_eq_true, eqStr_iff]

theorem lowerCode_idem (c : Nat) : lowerCode (lowerCode c) = lowerCode c := by
  by_cases h : 65 ≤ c ∧ c ≤ 90
  · have h1 : lowerCode c = c + 32 := by simp [lowerCode, h]
    rw [h1]
    have h2 : ¬(65 ≤ c + 32 ∧ c + 32 ≤ 90) := by omega
    simp [lowerCode, h2]
    omega
  · simp [lowerCode, h]

theorem lowerCode_eq47 (c : Nat) : (lowerCode c == 47) = (c == 47) := by
  by_cases h : 65 ≤ c ∧ c ≤ 90
  · simp [lowerCode, h]
    omega
  · simp [lowerCode, h]

theorem dropWhile_map_lower (l : PyStr) :
    (l.map lowerCode).dropWhile (fun c => c == 47) =
      (l.dropWhile (fun c => c == 47)).map lowerCode := by
  induction l with
  | nil => rfl
  | cons a l ih =>
    by_cases h : a = 47
    · subst h
      simp [List.dropWhile_cons, lowerCode, ih]
    · have h47 : (lowerCode a == 47) = false := by
        rw [lowerCode_eq47]; simp [h]
      simp [List.dropWhile_cons, h47, h]

theorem dropWhile_dropWhile (p : Nat → Bool) (l : PyStr) :
    (l.dropWhile p).dropWhile p = l.dropWhile p := by
  induction l with
  | nil => rfl
  | cons a l ih =>
    by_cases h : p a
    · simp [List.dropWhile_cons, h, ih]
    · simp [List.dropWhile_cons, h]

theorem rstripSlash_map_lower (l : PyStr) :
    rstripSlash (l.map lowerCode) = (rstripSlash l).map lowerCode := by
  unfold rstripSlash
  rw [← List.map_reverse, dropWhile_map_lower, List.map_reverse]

theorem rstripSlash_idem (l : PyStr) : rstripSlash (rstripSlash l) = rstripSlash l := by
  unfold rstripSlash
  rw [List.reverse_reverse, dropWhile_dropWhile]

theorem map_lower_idem (l : PyStr) :
    (l.map lowerCode).map lowerCode = l.map lowerCode := by
  rw [List.map_map]
  exact List.map_congr_left (fun c _ => lowerCode_idem c)

/-- Claim C9: normalization is idempotent —
`normalize_url (normalize_url u) = normalize_url u` for every URL string. -/
theorem normalize_url_idempotent (u : PyStr) :
    normalize_url (normalize_url u) = normalize_url u := by
  unfold normalize_url
  rw [rstripSlash_map_lower, rstripSlash_idem, ← rstripSlash_map_lower, map_lower_idem]

/-! ## Record lookup lemmas -/

theorem eqStr_false_of_head {a b : Nat} (ha : a ≠ b) (s t : PyStr) :
    eqStr (a :: s) (b :: t) = false := by
  simp [eqStr, ha]

theorem rlookup_append_of_none (r1 r2 : Record) (key : PyStr)
    (h : ∀ kv ∈ r1, eqStr kv.1 key = false) :
    rlookup (r1 ++ r2) key = rlookup r2 key := by
  induction r1 with
  | nil => rfl
  | cons kv r1 ih =>
    obtain ⟨k, v⟩ := kv
    have hk : eqStr k key = false := h (k, v) (by simp)
    simp only [List.cons_append, rlookup, hk]
    simp only [Bool.false_eq_true, if_false]
    exact ih (fun kv hkv => h kv (by simp [hkv]))

theorem eqStr_hname_false (lvl i : Nat) (b : Nat) (t : PyStr) (hb : b ≠ 72) :
    eqStr (hname lvl i) (b :: t) = false := by
  show eqStr (72 :: _) (b :: t) = false
  exact eqStr_false_of_head (fun h => hb h.symm) _ _

theorem rlookup_build_record_title (url : PyStr) (p : Page) :
    rlookup (build_record url p) (str "Title") = some (Val.s (titleVal p)) := by
  have hT : str "Title" = 84 :: [105, 116, 108, 101] := by decide
  have h1 : eqStr (str "URL") (str "Title") = false := by decide
  have h2 : eqStr (str "Status code") (str "Title") = false := by decide
  have h3 : eqStr (str "Title") (str "Title") = true := by decide
  simp only [build_record, rlookup, h1, h2, Bool.false_eq_true, if_false]
  rw [rlookup_append_of_none]
  · simp [rlookup, h3]
  · intro kv hkv
    rcases List.mem_append.mp hkv with hm | hm <;>
    · simp only [List.mem_map] at hm
      obtain ⟨e, _, rfl⟩ := hm
      rw [hT]
      exact eqStr_hname_false _ _ _ _ (by decide)

theorem rlookup_build_record_meta (url : PyStr) (p : Page) :
    rlookup (build_record url p) (str "META Description") = some (Val.s (metaVal p)) := by
  have hT : str "META Description" = 77 :: str "ETA Description" := by decide
  have h1 : eqStr (str "URL") (str "META Description") = false := by decide
  have h2 : eqStr (str "Status code") (str "META Description") = false := by decide
  have h3 : eqStr (str "Title") (str "META Description") = false := by decide
  have h4 : eqStr (str "META Description") (str "META Description") = true := by decide
  simp only [build_record, rlookup, h1, h2, Bool.false_eq_true, if_false]
  rw [rlookup_append_of_none]
  · simp [rlookup, h3, h4]
  · intro kv hkv
    rcases List.mem_append.mp hkv with hm | hm <;>
    · simp only [List.mem_map] at hm
      obtain ⟨e, _, rfl⟩ := hm
      rw [hT]
      exact eqStr_hname_false _ _ _ _ (by decide)

theorem rlookup_build_record_status (url : PyStr) (p : Page) :
    rlookup (build_record url p) (str "Status code") = some (Val.n p.status) := by
  have h1 : eqStr (str "URL") (str "Status code") = false := by decide
  have h2 : eqStr (str "Status code") (str "Status code") = true := by decide
  simp [build_record, rlookup, h1, h2]

theorem rlookup_build_record_url (url : PyStr) (p : Page) :
    rlookup (build_record url p) (str "URL") = some (Val.s url) := by
  have h1 : eqStr (str "URL") (str "URL") = true := by decide
  simp [build_record, rlookup, h1]

theorem scrape_page_html (web : Web) (resolve : Resolver) (u domain : PyStr) (p : Page)
    (hw : web u = some p) (hh : p.isHtml = true) :
    scrape_page web resolve u domain =
      (some (build_record u p),
       (p.hrefs.map (fun h => normalize_url (resolve u h))).filter
         (fun l => link_ok l domain)) := by
  simp [scrape_page, hw, hh]

/-! ## Claim C3: Title / META Description of a page lacking them -/

/-- Claim C3, counterexample: an HTML page with neither `<title>` nor a
meta description still yields a record that *contains* `Title` and
`META Description` entries — with empty string values — contradicting the
claim that the record has no entry for an absent field. -/
theorem title_entry_present_when_absent :
    (scrape_page webBare rid (str "http://a.com") (str "http://a.com")).1 =
      some [(str "URL", Val.s (str "http://a.com")), (str "Status code", Val.n 200),
            (str "Title", Val.s []), (str "META Description", Val.s [])] := by decide

/-- Claim C3 (amended): for every fetched HTML page, the record always
contains `Title` and `META Description` entries; when the document has no
`<title>` element or no meta-description tag the corresponding entry is
present with the empty string as value (it is not omitted). -/
theorem title_meta_fields_always_present (web : Web) (resolve : Resolver)
    (u domain : PyStr) (p : Page) (hw : web u = some p) (hh : p.isHtml = true) :
    (scrape_page web resolve u domain).1 = some (build_record u p) ∧
    rlookup (build_record u p) (str "Title") = some (Val.s (titleVal p)) ∧
    rlookup (build_record u p) (str "META Description") = some (Val.s (metaVal p)) := by
  refine ⟨?_, rlookup_build_record_title u p, rlookup_build_record_meta u p⟩
  rw [scrape_page_html web resolve u domain p hw hh]

/-- Witness for C3 (amended) at the concrete no-title, no-meta page. -/
theorem title_meta_fields_always_present_witness :
    (scrape_page webBare rid (str "http://a.com") (str "http://a.com")).1 =
      some (build_record (str "http://a.com") pgBare) ∧
    rlookup (build_record (str "http://a.com") pgBare) (str "Title") =
      some (Val.s (titleVal pgBare)) ∧
    rlookup (build_record (str "http://a.com") pgBare) (str "META Description") =
      some (Val.s (metaVal pgBare)) :=
  title_meta_fields_always_present webBare rid (str "http://a.com") (str "http://a.com")
    pgBare (by decide) (by decide)

/-! ## Claim C4: the link filter -/

/-- Claim C4, counterexample: `http://a.com/zipper` satisfies every
condition the claim states for retention (same domain, no `#`, does not
*end* in an excluded extension, no excluded path substring), yet the code
drops it, because line 62 tests `ext in link` — substring containment —
and `zip` occurs inside `zipper`.  The page's link list comes out empty. -/
theorem interior_extension_link_dropped :
    link_ok_claim (str "http://a.com/zipper") (str "http://a.com") = true ∧
    link_ok (str "http://a.com/zipper") (str "http://a.com") = false ∧
    (scrape_page webZipper rid (str "http://a.com") (str "http://a.com")).2 = [] := by
  decide

/-- Claim C4 (amended): a discovered link (resolved and normalized) is
retained iff its domain equals the seed's domain, it contains no `#`, no
excluded extension occurs anywhere in it *as a substring*, and it contains
none of the excluded path substrings.  In particular a URL containing an
excluded extension as an interior substring is dropped, not retained. -/
theorem link_filter_characterization (link domain : PyStr) :
    link_ok link domain = true ↔
      (get_domain link = domain ∧ hasChar link 35 = false ∧
       (∀ e ∈ EXCLUDED_EXTENSIONS, strHasSub e link = false) ∧
       (∀ p ∈ EXCLUDED_PATHS, strHasSub p link = false)) := by
  simp only [link_ok, Bool.and_eq_true, Bool.not_eq_true', List.any_eq_false,
    Bool.not_eq_true, eqStr_iff]
  tauto

/-! ## Claims C7 and C10: handling of a 429 response -/

theorem statusIs429_build (u : PyStr) (p : Page) :
    statusIs429 (build_record u p) = (p.status == 429) := by
  simp [statusIs429, rlookup_build_record_status]

theorem mem_unionKeys_left (hs ks : List PyStr) (k : PyStr) (hk : k ∈ hs) :
    k ∈ unionKeys hs ks := by
  induction ks generalizing hs with
  | nil => exact hk
  | cons a ks ih =>
    show k ∈ unionKeys (if containsStr hs a then hs else hs ++ [a]) ks
    refine ih _ ?_
    by_cases h : containsStr hs a <;> simp [h, hk]

theorem mem_unionKeys_right (hs ks : List PyStr) (k : PyStr) (hk : k ∈ ks) :
    k ∈ unionKeys hs ks := by
  induction ks generalizing hs with
  | nil => cases hk
  | cons a ks ih =>
    rcases List.mem_cons.mp hk with rfl | hk2
    · show k ∈ unionKeys (if containsStr hs k then hs else hs ++ [k]) ks
      apply mem_unionKeys_left
      by_cases h : containsStr hs k
      · simpa [h] using (containsStr_iff hs k).mp h
      · simp [h]
    · show k ∈ unionKeys (if containsStr hs a then hs else hs ++ [a]) ks
      exact ih _ hk2

/-- Claim C7: a fetched HTML page with status 429 still yields a record,
the URL is appended to `retry_urls` rather than the record to `all_rows`,
and none of its links are enqueued (the queue is unchanged). -/
theorem rate_limited_routed_to_retry (web : Web) (resolve : Resolver)
    (domain u : PyStr) (s : CrawlState) (p : Page)
    (hw : web u = some p) (hh : p.isHtml = true) (h429 : p.status = 429)
    (hpg : is_pagination_link u = false) :
    (scrape_page web resolve u domain).1 = some (build_record u p) ∧
    (process_url web resolve domain u s).retry = s.retry ++ [u] ∧
    (process_url web resolve domain u s).rows = s.rows ∧
    (process_url web resolve domain u s).queue = s.queue := by
  have hs := scrape_page_html web resolve u domain p hw hh
  have h4 : statusIs429 (build_record u p) = true := by
    rw [statusIs429_build, h429]
    rfl
  refine ⟨by rw [hs], ?_, ?_, ?_⟩ <;> simp [process_url, hpg, hs, h4]

/-- Witness for C7 at the concrete rate-limited seed page. -/
theorem rate_limited_routed_to_retry_witness :
    (scrape_page web429 rid (str "http://a.com") (str "http://a.com")).1 =
      some (build_record (str "http://a.com") pg429) ∧
    (process_url web429 rid (str "http://a.com") (str "http://a.com")
        (initState (str "http://a.com"))).retry =
      (initState (str "http://a.com")).retry ++ [str "http://a.com"] ∧
    (process_url web429 rid (str "http://a.com") (str "http://a.com")
        (initState (str "http://a.com"))).rows = (initState (str "http://a.com")).rows ∧
    (process_url web429 rid (str "http://a.com") (str "http://a.com")
        (initState (str "http://a.com"))).queue = (initState (str "http://a.com")).queue :=
  rate_limited_routed_to_retry web429 rid (str "http://a.com") (str "http://a.com")
    (initState (str "http://a.com")) pg429 (by decide) (by decide) (by decide) (by decide)

/-- Claim C10: even for a 429 page, every field name of the record built
for it — heading fields included — is merged into `all_headers`, while no
row is appended; so the final report can have columns empty in every row. -/
theorem rate_limited_headers_still_merged (web : Web) (resolve : Resolver)
    (domain u : PyStr) (s : CrawlState) (p : Page)
    (hw : web u = some p) (hh : p.isHtml = true) (h429 : p.status = 429)
    (hpg : is_pagination_link u = false) :
    (∀ k ∈ recordKeys (build_record u p), k ∈ (process_url web resolve domain u s).headers) ∧
    (process_url web resolve domain u s).rows = s.rows := by
  have hs := scrape_page_html web resolve u domain p hw hh
  have h4 : statusIs429 (build_record u p) = true := by
    rw [statusIs429_build, h429]
    rfl
  constructor
  · intro k hk
    simp only [process_url, hpg, Bool.false_eq_true, if_false, hs, h4, if_true]
    exact mem_unionKeys_right _ _ _ hk
  · simp [process_url, hpg, hs, h4]

/-- Witness for C10: the heading field `H1 - 1` of the rate-limited page is
in the header set although its record was not added to the rows. -/
theorem rate_limited_headers_still_merged_witness :
    hname 1 1 ∈ (process_url web429 rid (str "http://a.com") (str "http://a.com")
      (initState (str "http://a.com"))).headers ∧
    (process_url web429 rid (str "http://a.com") (str "http://a.com")
      (initState (str "http://a.com"))).rows = (initState (str "http://a.com")).rows :=
  ⟨(rate_limited_headers_still_merged web429 rid (str "http://a.com") (str "http://a.com")
      (initState (str "http://a.com")) pg429 (by decide) (by decide) (by decide) (by decide)).1
      (hname 1 1) (by decide),
   (rate_limited_headers_still_merged web429 rid (str "http://a.com") (str "http://a.com")
      (initState (str "http://a.com")) pg429 (by decide) (by decide) (by decide) (by decide)).2⟩

/-! ## Claim C1: the retry pass never re-fetches (code bug)

A URL that answered 429 in pass 1 was added to `visited_urls` (line 119)
before `process_url` ran.  Pass 2 re-puts it on the same queue (lines
134–135) but `worker` still checks the same visited set (line 116), so the
URL is dequeued, found visited, and skipped: it is fetched zero times in
pass 2, not once. -/

/-- Claim C1, evaluated at the failing input: the seed answers 429 in pass
1, lands on the retry list, and yet after pass 2 the fetch log still holds
exactly the single pass-1 fetch — the retry fetch never happens, because
the re-enqueued URL is already in the visited set and pass 2 has no path
around that gate. -/
theorem retry_url_never_refetched :
    (crawl web429 rid (str "http://a.com") 2 2).1.retry = [str "http://a.com"] ∧
    (crawl web429 rid (str "http://a.com") 2 2).1.fetched = [str "http://a.com"] ∧
    (crawl web429 rid (str "http://a.com") 2 2).1.visited = [str "http://a.com"] ∧
    (crawl web429 rid (str "http://a.com") 2 2).2.fetched = [str "http://a.com"] ∧
    (crawl web429 rid (str "http://a.com") 2 2).2.rows = [] := by decide

/-! ## Claim C2: `sanitise_url` validates nothing (code bug)

`sanitise_url` (lines 20–23) only prepends `http://` and normalizes; it
raises for no input, so the `except ValueError` guard of `main` (lines
71–75) is unreachable and the crawl always proceeds to fetch whatever the
prefixed string is. -/

/-- Claim C2, evaluated at a failing input: the unparseable seed `???` is
not rejected — `sanitise_url` returns `http://???` and the crawl goes on
to attempt a fetch of it (one entry in the fetch log), instead of aborting
before any crawling. -/
theorem sanitise_url_never_fails :
    sanitise_url (str "???") = str "http://???" ∧
    (crawl (fun _ => none) rid (sanitise_url (str "???")) 2 2).1.fetched =
      [str "http://???"] := by decide

/-! ## Claim C5: at most one fetch per URL per pass -/

theorem process_url_fetched_visited (web : Web) (resolve : Resolver)
    (d u : PyStr) (s : CrawlState) :
    ((process_url web resolve d u s).fetched = s.fetched ∨
      (process_url web resolve d u s).fetched = s.fetched ++ [u]) ∧
    (process_url web resolve d u s).visited = s.visited := by
  unfold process_url
  split
  · exact ⟨Or.inl rfl, rfl⟩
  · split
    · exact ⟨Or.inr rfl, rfl⟩
    · split
      · exact ⟨Or.inr rfl, rfl⟩
      · exact ⟨Or.inr rfl, rfl⟩

theorem process_url_fetchInv (web : Web) (resolve : Resolver)
    (d u : PyStr) (s : CrawlState)
    (hin : u ∈ s.visited) (hout : u ∉ s.fetched) (h : fetchInv s) :
    fetchInv (process_url web resolve d u s) := by
  obtain ⟨hf, hv⟩ := process_url_fetched_visited web resolve d u s
  constructor
  · rcases hf with hf | hf <;> rw [hf]
    · exact h.1
    · simp [List.nodup_append, h.1, hout]
  · intro x hx
    rw [hv]
    rcases hf with hf | hf <;> rw [hf] at hx
    · exact h.2 x hx
    · rcases List.mem_append.mp hx with hx | hx
      · exact h.2 x hx
      · rw [List.mem_singleton.mp hx]
        exact hin

theorem worker_fetchInv (web : Web) (resolve : Resolver) (d : PyStr) :
    ∀ (fuel : Nat) (s : CrawlState), fetchInv s →
      fetchInv (worker web resolve d fuel s) := by
  intro fuel
  induction fuel with
  | zero => intro s h; exact h
  | succ fuel ih =>
    intro s h
    show fetchInv (match s.queue with
      | [] => s
      | u :: rest =>
        if containsStr s.visited u then
          worker web resolve d fuel { s with queue := rest }
        else
          worker web resolve d fuel
            (process_url web resolve d u
              { s with queue := rest, visited := s.visited ++ [u] }))
    cases hq : s.queue with
    | nil => exact h
    | cons u rest =>
      by_cases hv : containsStr s.visited u
      · simp only [hv, if_true]
        exact ih _ ⟨h.1, h.2⟩
      · simp only [hv, Bool.false_eq_true, if_false]
        apply ih
        apply process_url_fetchInv
        · simp
        · intro hmem
          exact hv ((containsStr_iff _ _).mpr (h.2 u hmem))
        · refine ⟨h.1, fun x hx => ?_⟩
          exact List.mem_append_left _ (h.2 x hx)

theorem countStr_eq_zero_of_not_mem (u : PyStr) (l : List PyStr) (h : u ∉ l) :
    countStr u l = 0 := by
  induction l with
  | nil => rfl
  | cons a l ih =>
    have ha : eqStr a u = false := by
      by_contra hc
      have := (eqStr_iff a u).mp (by revert hc; cases eqStr a u <;> simp)
      exact h (this ▸ List.mem_cons_self a l)
    simp only [countStr, List.filter_cons, ha, Bool.false_eq_true, if_false]
    exact ih (fun hm => h (List.mem_cons_of_mem _ hm))

theorem countStr_le_one_of_nodup (l : List PyStr) (h : l.Nodup) (u : PyStr) :
    countStr u l ≤ 1 := by
  induction l with
  | nil => exact Nat.zero_le 1
  | cons a l ih =>
    have hnd := List.nodup_cons.mp h
    by_cases ha : eqStr a u
    · have hau : a = u := (eqStr_iff a u).mp ha
      simp only [countStr, List.filter_cons, ha, if_true, List.length_cons]
      have : countStr u l = 0 :=
        countStr_eq_zero_of_not_mem u l (hau ▸ hnd.1)
      simp only [countStr] at this
      omega
    · have ha' : eqStr a u = false := by revert ha; cases eqStr a u <;> simp
      simp only [countStr, List.filter_cons, ha', Bool.false_eq_true, if_false]
      exact ih hnd.2

/-- Claim C5: within each pass, every normalized URL is passed to
`scrape_page` at most once — the visited-set check and insertion happen as
one serialized step per dequeued URL, so the per-pass fetch count of any
URL is at most 1 (pass 2 counts only the fetches after pass 1's log). -/
theorem fetch_attempted_at_most_once_per_pass (web : Web) (resolve : Resolver)
    (start : PyStr) (fuel1 fuel2 : Nat) (u : PyStr) :
    countStr u (crawl web resolve start fuel1 fuel2).1.fetched ≤ 1 ∧
    countStr u ((crawl web resolve start fuel1 fuel2).2.fetched.drop
        (crawl web resolve start fuel1 fuel2).1.fetched.length) ≤ 1 := by
  have h0 : fetchInv (initState start) := ⟨List.nodup_nil, by simp [initState]⟩
  have h1 : fetchInv (crawl web resolve start fuel1 fuel2).1 :=
    worker_fetchInv web resolve (get_domain start) fuel1 _ h0
  have h2 : fetchInv (crawl web resolve start fuel1 fuel2).2 := by
    show fetchInv (if _ then _ else _)
    split
    · exact h1
    · exact worker_fetchInv web resolve (get_domain start) fuel2 _ ⟨h1.1, h1.2⟩
  constructor
  · exact countStr_le_one_of_nodup _ h1.1 u
  · exact countStr_le_one_of_nodup _
      (List.Nodup.sublist (List.drop_sublist _ _) h2.1) u

/-! ## Claim C8: domain containment of result rows -/

theorem link_ok_domain (l d : PyStr) (h : link_ok l d = true) : get_domain l = d := by
  simp only [link_ok, Bool.and_eq_true, eqStr_iff] at h
  exact h.1.1.1

theorem process_url_domInv (web : Web) (resolve : Resolver) (d u : PyStr)
    (s : CrawlState) (hu : get_domain u = d) (h : domInv d s) :
    domInv d (process_url web resolve d u s) := by
  by_cases hpg : is_pagination_link u
  · simpa [process_url, hpg] using h
  · cases hw : web u with
    | none => simpa [process_url, hpg, scrape_page, hw] using h
    | some p =>
      by_cases hh : p.isHtml
      · have hs := scrape_page_html web resolve u d p hw hh
        by_cases h4 : statusIs429 (build_record u p)
        · simp only [process_url, hpg, Bool.false_eq_true, if_false, hs, h4, if_true]
          refine ⟨h.1, ?_, h.2.2⟩
          intro x hx
          rcases List.mem_append.mp hx with hx | hx
          · exact h.2.1 x hx
          · rw [List.mem_singleton.mp hx]
            exact hu
        · simp only [process_url, hpg, Bool.false_eq_true, if_false, hs, h4, if_true]
          refine ⟨?_, h.2.1, ?_⟩
          · intro x hx
            rcases List.mem_append.mp hx with hx | hx
            · exact h.1 x hx
            · have hx2 := (List.mem_filter.mp hx).1
              have hx3 := (List.mem_filter.mp hx2).2
              exact link_ok_domain x d hx3
          · intro r hr
            rcases List.mem_append.mp hr with hr | hr
            · exact h.2.2 r hr
            · rw [List.mem_singleton.mp hr]
              exact ⟨u, rlookup_build_record_url u p, hu⟩
      · have hh' : p.isHtml = false := by simpa using hh
        simpa [process_url, hpg, scrape_page, hw, hh'] using h

theorem worker_domInv (web : Web) (resolve : Resolver) (d : PyStr) :
    ∀ (fuel : Nat) (s : CrawlState), domInv d s →
      domInv d (worker web resolve d fuel s) := by
  intro fuel
  induction fuel with
  | zero => intro s h; exact h
  | succ fuel ih =>
    intro s h
    show domInv d (match s.queue with
      | [] => s
      | u :: rest =>
        if containsStr s.visited u then
          worker web resolve d fuel { s with queue := rest }
        else
          worker web resolve d fuel
            (process_url web resolve d u
              { s with queue := rest, visited := s.visited ++ [u] }))
    cases hq : s.queue with
    | nil => exact h
    | cons u rest =>
      have hrest : ∀ x ∈ rest, get_domain x = d := by
        intro x hx
        exact h.1 x (by rw [hq]; exact List.mem_cons_of_mem _ hx)
      have hu : get_domain u = d := h.1 u (by rw [hq]; simp)
      by_cases hv : containsStr s.visited u
      · simp only [hv, if_true]
        exact ih _ ⟨hrest, h.2.1, h.2.2⟩
      · simp only [hv, Bool.false_eq_true, if_false]
        exact ih _ (process_url_domInv web resolve d u _ hu ⟨hrest, h.2.1, h.2.2⟩)

/-- Claim C8: every record in the final result rows carries a `URL` field
whose domain (`scheme://netloc`) equals the domain of the sanitized seed. -/
theorem row_domain_containment (web : Web) (resolve : Resolver) (start : PyStr)
    (fuel1 fuel2 : Nat) (r : Record)
    (hr : r ∈ (crawl web resolve start fuel1 fuel2).2.rows) :
    ∃ u, rlookup r (str "URL") = some (Val.s u) ∧ get_domain u = get_domain start := by
  have h0 : domInv (get_domain start) (initState start) := by
    refine ⟨?_, by simp [initState], by simp [initState]⟩
    intro x hx
    rw [List.mem_singleton.mp hx]
  have h1 : domInv (get_domain start) (crawl web resolve start fuel1 fuel2).1 :=
    worker_domInv web resolve (get_domain start) fuel1 _ h0
  have h2 : domInv (get_domain start) (crawl web resolve start fuel1 fuel2).2 := by
    show domInv _ (if _ then _ else _)
    split
    · exact h1
    · refine worker_domInv web resolve (get_domain start) fuel2 _ ⟨?_, h1.2.1, h1.2.2⟩
      intro x hx
      rcases List.mem_append.mp hx with hx | hx
      · exact h1.1 x hx
      · exact h1.2.1 x hx
  exact h2.2.2 r hr

/-- Witness for C8 at a concrete crawl producing one row. -/
theorem row_domain_containment_witness :
    ∃ u, rlookup recHome (str "URL") = some (Val.s u) ∧
      get_domain u = get_domain (str "http://a.com") :=
  row_domain_containment webHome rid (str "http://a.com") 3 3 recHome (by decide)

/-! ## Claim C6: column order of the report

Stage A: the sort key computed on a heading field name `H<lvl> - <i>`. -/

theorem natReprAux_digits :
    ∀ fuel n, n < fuel → ∀ c ∈ natReprAux fuel n, 48 ≤ c ∧ c ≤ 57 := by
  intro fuel
  induction fuel with
  | zero => intro n h; omega
  | succ fuel ih =>
    intro n _ c hc
    by_cases h10 : n < 10
    · simp only [natReprAux, h10, if_true, List.mem_singleton] at hc
      omega
    · simp only [natReprAux, h10, if_false, List.mem_append, List.mem_singleton] at hc
      rcases hc with hc | hc
      · exact ih (n / 10) (Nat.lt_of_lt_of_le (Nat.div_lt_self (by omega) (by omega))
          (by omega)) c hc
      · omega

theorem natRepr_digits (n : Nat) : ∀ c ∈ natRepr n, 48 ≤ c ∧ c ≤ 57 :=
  natReprAux_digits (n + 1) n (Nat.lt_succ_self n)

theorem natReprAux_parse :
    ∀ fuel n, n < fuel → parseDigits (natReprAux fuel n) = n := by
  intro fuel
  induction fuel with
  | zero => intro n h; omega
  | succ fuel ih =>
    intro n hn
    by_cases h10 : n < 10
    · simp only [natReprAux, h10, if_true, parseDigits, List.foldl]
      omega
    · have hdiv : n / 10 < fuel :=
        Nat.lt_of_lt_of_le (Nat.div_lt_self (by omega) (by omega)) (by omega)
      have := ih (n / 10) hdiv
      simp only [natReprAux, h10, if_false, parseDigits, List.foldl_append, List.foldl]
      simp only [parseDigits] at this
      rw [this]
      omega

theorem natRepr_parse (n : Nat) : parseDigits (natRepr n) = n :=
  natReprAux_parse (n + 1) n (Nat.lt_succ_self n)

theorem takeWhile_append_of_all (p : Nat → Bool) (l1 l2 : PyStr)
    (h : ∀ a ∈ l1, p a = true) :
    (l1 ++ l2).takeWhile p = l1 ++ l2.takeWhile p := by
  induction l1 with
  | nil => rfl
  | cons a l1 ih =>
    have ha : p a = true := h a (by simp)
    simp only [List.cons_append, List.takeWhile_cons, ha, if_true]
    rw [ih (fun x hx => h x (by simp [hx]))]

theorem dropWhile_append_of_all (p : Nat → Bool) (l1 l2 : PyStr)
    (h : ∀ a ∈ l1, p a = true) :
    (l1 ++ l2).dropWhile p = l2.dropWhile p := by
  induction l1 with
  | nil => rfl
  | cons a l1 ih =>
    have ha : p a = true := h a (by simp)
    simp only [List.cons_append, List.dropWhile_cons, ha, if_true]
    exact ih (fun x hx => h x (by simp [hx]))

theorem takeWhile_of_all (p : Nat → Bool) (l : PyStr) (h : ∀ a ∈ l, p a = true) :
    l.takeWhile p = l := by
  induction l with
  | nil => rfl
  | cons a l ih =>
    have ha : p a = true := h a (by simp)
    simp only [List.takeWhile_cons, ha, if_true]
    rw [ih (fun x hx => h x (by simp [hx]))]

theorem dropWhile_of_none (p : Nat → Bool) (l : PyStr) (h : ∀ a ∈ l, p a = false) :
    l.dropWhile p = l := by
  induction l with
  | nil => rfl
  | cons a l ih =>
    have ha : p a = false := h a (by simp)
    simp only [List.dropWhile_cons, ha, Bool.false_eq_true, if_false]

theorem digit_not_dash (c : Nat) (h : 48 ≤ c ∧ c ≤ 57) : (!(c == 45)) = true := by
  simp
  omega

theorem digit_not_space (c : Nat) (h : 48 ≤ c ∧ c ≤ 57) : isSpc c = false := by
  simp [isSpc]
  omega

theorem piece0_hname (lvl i : Nat) :
    piece0 (hname lvl i) = 72 :: (natRepr lvl ++ [32]) := by
  show List.takeWhile _ (72 :: (natRepr lvl ++ (32 :: 45 :: 32 :: natRepr i))) = _
  rw [List.takeWhile_cons]
  simp only [show ((!(72 == 45)) = true) from rfl, if_true]
  rw [takeWhile_append_of_all _ _ _ (fun a ha => digit_not_dash a (natRepr_digits lvl a ha))]
  rw [List.takeWhile_cons]
  simp only [show ((!(32 == 45)) = true) from rfl, if_true]
  rw [List.takeWhile_cons]
  simp

theorem piece1_hname (lvl i : Nat) : piece1 (hname lvl i) = 32 :: natRepr i := by
  show (((hname lvl i).dropWhile _).drop 1).takeWhile _ = _
  have hdw : (hname lvl i).dropWhile (fun c => !(c == 45)) = 45 :: 32 :: natRepr i := by
    show List.dropWhile _ (72 :: (natRepr lvl ++ (32 :: 45 :: 32 :: natRepr i))) = _
    rw [List.dropWhile_cons]
    simp only [show ((!(72 == 45)) = true) from rfl, if_true]
    rw [dropWhile_append_of_all _ _ _
      (fun a ha => digit_not_dash a (natRepr_digits lvl a ha))]
    rw [List.dropWhile_cons]
    simp only [show ((!(32 == 45)) = true) from rfl, if_true]
    rw [List.dropWhile_cons]
    simp
  rw [hdw]
  simp only [List.drop_succ_cons, List.drop_zero]
  rw [List.takeWhile_cons]
  simp only [show ((!(32 == 45)) = true) from rfl, if_true]
  rw [takeWhile_of_all _ _ (fun a ha => digit_not_dash a (natRepr_digits i a ha))]

theorem pyInt_space_natRepr (i : Nat) : pyInt (32 :: natRepr i) = i := by
  show parseDigits (pyStrip (32 :: natRepr i)) = i
  have h1 : (32 :: natRepr i).dropWhile isSpc = natRepr i := by
    rw [List.dropWhile_cons]
    simp only [show (isSpc 32 = true) from rfl, if_true]
    exact dropWhile_of_none _ _ (fun a ha => digit_not_space a (natRepr_digits i a ha))
  show parseDigits (((32 :: natRepr i).dropWhile isSpc).reverse.dropWhile isSpc).reverse = i
  rw [h1]
  rw [dropWhile_of_none _ _
    (fun a ha => digit_not_space a (natRepr_digits i a (List.mem_reverse.mp ha)))]
  rw [List.reverse_reverse]
  exact natRepr_parse i

theorem hasChar_hname_45 (lvl i : Nat) : hasChar (hname lvl i) 45 = true := by
  simp only [hasChar, hname, List.any_eq_true]
  refine ⟨45, ?_, rfl⟩
  simp

theorem pyKey_hname (lvl i : Nat) :
    pyKey (hname lvl i) = (72 :: (natRepr lvl ++ [32]), i) := by
  have hH : headIsH (piece0 (hname lvl i)) = true := by
    rw [piece0_hname]
    rfl
  simp only [pyKey, hasChar_hname_45 lvl i, hH, Bool.and_self, if_true]
  rw [piece0_hname, piece1_hname, pyInt_space_natRepr]

/-! Stage B: the sort order.  `keyLe` is the Boolean order Python's
`sorted` uses on key tuples; on heading names it coincides with
`pairLe` on `(level, index)`. -/

theorem strLt_trichotomy : ∀ s t : PyStr, strLt s t = true ∨ s = t ∨ strLt t s = true := by
  intro s
  induction s with
  | nil =>
    intro t
    cases t with
    | nil => exact Or.inr (Or.inl rfl)
    | cons b t => exact Or.inl rfl
  | cons a s ih =>
    intro t
    cases t with
    | nil => exact Or.inr (Or.inr rfl)
    | cons b t =>
      rcases Nat.lt_trichotomy a b with h | h | h
      · exact Or.inl (by simp [strLt, h])
      · subst h
        rcases ih t with h1 | h1 | h1
        · exact Or.inl (by simp [strLt, h1])
        · exact Or.inr (Or.inl (by rw [h1]))
        · exact Or.inr (Or.inr (by simp [strLt, h1]))
      · exact Or.inr (Or.inr (by simp [strLt, h]))

theorem strLt_trans :
    ∀ s t u : PyStr, strLt s t = true → strLt t u = true → strLt s u = true := by
  intro s
  induction s with
  | nil =>
    intro t u h1 h2
    cases t with
    | nil => simp [strLt] at h1
    | cons b t =>
      cases u with
      | nil => simp [strLt] at h2
      | cons c u => rfl
  | cons a s ih =>
    intro t u h1 h2
    cases t with
    | nil => simp [strLt] at h1
    | cons b t =>
      cases u with
      | nil => simp [strLt] at h2
      | cons c u =>
        by_cases hab : a < b
        · by_cases hbc : b < c
          · simp [strLt, show a < c by omega]
          · simp only [strLt, if_neg hbc] at h2
            by_cases hcb : c < b
            · simp [hcb] at h2
            · have hbceq : b = c := by omega
              subst hbceq
              simp [strLt, hab]
        · by_cases hba : b < a
          · simp [strLt, hab, hba] at h1
          · have habeq : a = b := by omega
            subst habeq
            simp only [strLt, if_neg hab, Nat.lt_irrefl, if_false] at h1
            by_cases hac : a < c
            · simp [strLt, hac]
            · simp only [strLt, if_neg hac] at h2
              by_cases hca : c < a
              · simp [hca] at h2
              · rw [if_neg hca] at h2
                have : a = c := by omega
                subst this
                simp only [strLt, Nat.lt_irrefl, if_false]
                exact ih t u h1 h2

theorem strLt_irrefl : ∀ s : PyStr, strLt s s = false := by
  intro s
  induction s with
  | nil => rfl
  | cons a s ih => simp [strLt, ih]

theorem keyLe_iff (a b : PyStr) :
    keyLe a b = true ↔
      (strLt (pyKey a).1 (pyKey b).1 = true ∨
        ((pyKey a).1 = (pyKey b).1 ∧ (pyKey a).2 ≤ (pyKey b).2)) := by
  simp [keyLe, Bool.or_eq_true, Bool.and_eq_true, eqStr_iff, Nat.ble_eq]

theorem keyLe_total (a b : PyStr) : keyLe a b = true ∨ keyLe b a = true := by
  rcases strLt_trichotomy (pyKey a).1 (pyKey b).1 with h | h | h
  · exact Or.inl ((keyLe_iff a b).mpr (Or.inl h))
  · by_cases hn : (pyKey a).2 ≤ (pyKey b).2
    · exact Or.inl ((keyLe_iff a b).mpr (Or.inr ⟨h, hn⟩))
    · exact Or.inr ((keyLe_iff b a).mpr (Or.inr ⟨h.symm, by omega⟩))
  · exact Or.inr ((keyLe_iff b a).mpr (Or.inl h))

theorem keyLe_trans (a b c : PyStr)
    (h1 : keyLe a b = true) (h2 : keyLe b c = true) : keyLe a c = true := by
  rcases (keyLe_iff a b).mp h1 with hx | hx <;> rcases (keyLe_iff b c).mp h2 with hy | hy
  · exact (keyLe_iff a c).mpr (Or.inl (strLt_trans _ _ _ hx hy))
  · exact (keyLe_iff a c).mpr (Or.inl (hy.1 ▸ hx))
  · exact (keyLe_iff a c).mpr (Or.inl (hx.1 ▸ hy))
  · exact (keyLe_iff a c).mpr (Or.inr ⟨hx.1.trans hy.1, hx.2.trans hy.2⟩)

theorem pairLe_iff (p q : Nat × Nat) :
    pairLe p q = true ↔ (p.1 < q.1 ∨ (p.1 = q.1 ∧ p.2 ≤ q.2)) := by
  simp [pairLe, Bool.or_eq_true, Bool.and_eq_true, Nat.blt_eq, Nat.ble_eq]

theorem pairLe_total (p q : Nat × Nat) : pairLe p q = true ∨ pairLe q p = true := by
  rw [pairLe_iff, pairLe_iff]
  omega

theorem pairLe_trans (p q r : Nat × Nat)
    (h1 : pairLe p q = true) (h2 : pairLe q r = true) : pairLe p r = true := by
  rw [pairLe_iff] at h1 h2 ⊢
  omega

theorem pairLe_antisymm (p q : Nat × Nat)
    (h1 : pairLe p q = true) (h2 : pairLe q p = true) : p = q := by
  rw [pairLe_iff] at h1 h2
  have hp : p.1 = q.1 ∧ p.2 = q.2 := by omega
  exact Prod.ext hp.1 hp.2

theorem keyLe_hname (l1 l2 i j : Nat)
    (h1 : l1 = 1 ∨ l1 = 2) (h2 : l2 = 1 ∨ l2 = 2) :
    keyLe (hname l1 i) (hname l2 j) = pairLe (l1, i) (l2, j) := by
  have e1 : natRepr 1 = [49] := rfl
  have e2 : natRepr 2 = [50] := rfl
  rcases h1 with rfl | rfl <;> rcases h2 with rfl | rfl <;>
    simp +decide [keyLe, pyKey_hname, e1, e2, pairLe, strLt, eqStr]

/-! Stage C: sorting lemmas and determinism of the column order. -/

theorem insertLe_perm (le : PyStr → PyStr → Bool) (a : PyStr) (l : List PyStr) :
    (insertLe le a l).Perm (a :: l) := by
  induction l with
  | nil => exact List.Perm.refl _
  | cons b l ih =>
    by_cases h : le a b
    · simp [insertLe, h]
    · simp only [insertLe, h, Bool.false_eq_true, if_false]
      exact (ih.cons b).trans (List.Perm.swap a b l)

theorem sortLe_perm (le : PyStr → PyStr → Bool) (l : List PyStr) : (sortLe le l).Perm l := by
  induction l with
  | nil => exact List.Perm.refl _
  | cons a l ih => exact (insertLe_perm le a (sortLe le l)).trans (ih.cons a)

theorem insertLe_pairwise (le : PyStr → PyStr → Bool)
    (total : ∀ x y, le x y = true ∨ le y x = true)
    (htrans : ∀ x y z, le x y = true → le y z = true → le x z = true)
    (a : PyStr) (l : List PyStr) (h : l.Pairwise (fun x y => le x y = true)) :
    (insertLe le a l).Pairwise (fun x y => le x y = true) := by
  induction l with
  | nil => simp [insertLe]
  | cons b l ih =>
    obtain ⟨hb, hl⟩ := List.pairwise_cons.mp h
    by_cases hab : le a b
    · simp only [insertLe, hab, if_true]
      refine List.pairwise_cons.mpr ⟨?_, h⟩
      intro x hx
      rcases List.mem_cons.mp hx with rfl | hx
      · exact hab
      · exact htrans a b x hab (hb x hx)
    · simp only [insertLe, hab, Bool.false_eq_true, if_false]
      refine List.pairwise_cons.mpr ⟨?_, ih hl⟩
      intro x hx
      have hx2 := (insertLe_perm le a l).mem_iff.mp hx
      rcases List.mem_cons.mp hx2 with rfl | hx2
      · rcases total x b with hc | hc
        · exact absurd hc hab
        · exact hc
      · exact hb x hx2

theorem sortLe_pairwise (le : PyStr → PyStr → Bool)
    (total : ∀ x y, le x y = true ∨ le y x = true)
    (htrans : ∀ x y z, le x y = true → le y z = true → le x z = true)
    (l : List PyStr) : (sortLe le l).Pairwise (fun x y => le x y = true) := by
  induction l with
  | nil => exact List.Pairwise.nil
  | cons a l ih => exact insertLe_pairwise le total htrans a _ ih

theorem insertPair_perm (a : Nat × Nat) (l : List (Nat × Nat)) :
    (insertPair a l).Perm (a :: l) := by
  induction l with
  | nil => exact List.Perm.refl _
  | cons b l ih =>
    by_cases h : pairLe a b
    · simp [insertPair, h]
    · simp only [insertPair, h, Bool.false_eq_true, if_false]
      exact (ih.cons b).trans (List.Perm.swap a b l)

theorem sortPairs_perm (l : List (Nat × Nat)) : (sortPairs l).Perm l := by
  induction l with
  | nil => exact List.Perm.refl _
  | cons a l ih => exact (insertPair_perm a (sortPairs l)).trans (ih.cons a)

theorem insertPair_pairwise (a : Nat × Nat) (l : List (Nat × Nat))
    (h : l.Pairwise (fun x y => pairLe x y = true)) :
    (insertPair a l).Pairwise (fun x y => pairLe x y = true) := by
  induction l with
  | nil => simp [insertPair]
  | cons b l ih =>
    obtain ⟨hb, hl⟩ := List.pairwise_cons.mp h
    by_cases hab : pairLe a b
    · simp only [insertPair, hab, if_true]
      refine List.pairwise_cons.mpr ⟨?_, h⟩
      intro x hx
      rcases List.mem_cons.mp hx with rfl | hx
      · exact hab
      · exact pairLe_trans a b x hab (hb x hx)
    · simp only [insertPair, hab, Bool.false_eq_true, if_false]
      refine List.pairwise_cons.mpr ⟨?_, ih hl⟩
      intro x hx
      have hx2 := (insertPair_perm a l).mem_iff.mp hx
      rcases List.mem_cons.mp hx2 with rfl | hx2
      · rcases pairLe_total x b with hc | hc
        · exact absurd hc hab
        · exact hc
      · exact hb x hx2

theorem sortPairs_pairwise (l : List (Nat × Nat)) :
    (sortPairs l).Pairwise (fun x y => pairLe x y = true) := by
  induction l with
  | nil => exact List.Pairwise.nil
  | cons a l ih => exact insertPair_pairwise a _ ih

/-- Two sorted lists that are permutations of each other are equal, given
antisymmetry of the order on the elements that actually occur. -/
theorem sorted_perm_eq (le : PyStr → PyStr → Bool) :
    ∀ (l1 l2 : List PyStr), l1.Perm l2 →
      l1.Pairwise (fun x y => le x y = true) →
      l2.Pairwise (fun x y => le x y = true) →
      (∀ x ∈ l1, ∀ y ∈ l1, le x y = true → le y x = true → x = y) →
      l1 = l2 := by
  intro l1
  induction l1 with
  | nil =>
    intro l2 hp _ _ _
    exact (hp.symm.eq_nil).symm
  | cons a t1 ih =>
    intro l2 hp hs1 hs2 ha
    cases l2 with
    | nil => exact absurd hp.eq_nil (by simp)
    | cons b t2 =>
      by_cases hab : a = b
      · subst hab
        have ht : t1.Perm t2 := hp.cons_inv
        have htl : t1 = t2 :=
          ih t2 ht (List.pairwise_cons.mp hs1).2 (List.pairwise_cons.mp hs2).2
            (fun x hx y hy => ha x (List.mem_cons_of_mem _ hx) y (List.mem_cons_of_mem _ hy))
        rw [htl]
      · exfalso
        have hb1 : b ∈ a :: t1 := hp.symm.subset (List.mem_cons_self b t2)
        have hb2 : b ∈ t1 := by
          rcases List.mem_cons.mp hb1 with h | h
          · exact absurd h.symm hab
          · exact h
        have ha1 : a ∈ b :: t2 := hp.subset (List.mem_cons_self a t1)
        have ha2 : a ∈ t2 := by
          rcases List.mem_cons.mp ha1 with h | h
          · exact absurd h hab
          · exact h
        have hab1 : le a b = true := (List.pairwise_cons.mp hs1).1 b hb2
        have hba1 : le b a = true := (List.pairwise_cons.mp hs2).1 a ha2
        exact hab (ha a (List.mem_cons_self a t1) b (List.mem_cons_of_mem _ hb2) hab1 hba1)

theorem containsStr_fixed_hname (lvl i : Nat) :
    containsStr fixedCols (hname lvl i) = false := by
  have hn : hname lvl i = 72 :: (natRepr lvl ++ (32 :: 45 :: 32 :: natRepr i)) := rfl
  have h1 : eqStr (str "Status code") (hname lvl i) = false := by
    rw [show str "Status code" = 83 :: str "tatus code" from by decide, hn]
    exact eqStr_false_of_head (by decide) _ _
  have h2 : eqStr (str "URL") (hname lvl i) = false := by
    rw [show str "URL" = 85 :: str "RL" from by decide, hn]
    exact eqStr_false_of_head (by decide) _ _
  have h3 : eqStr (str "Title") (hname lvl i) = false := by
    rw [show str "Title" = 84 :: str "itle" from by decide, hn]
    exact eqStr_false_of_head (by decide) _ _
  have h4 : eqStr (str "META Description") (hname lvl i) = false := by
    rw [show str "META Description" = 77 :: str "ETA Description" from by decide, hn]
    exact eqStr_false_of_head (by decide) _ _
  simp [containsStr, fixedCols, h1, h2, h3, h4]

/-- Claim C6: the report's column order is `Status code`, `URL`, `Title`,
`META Description` first, then the heading fields sorted by tag level and
then by *numeric* occurrence index; it depends only on the set of observed
field names, not on the order they were observed in.  (`ps` enumerates the
observed heading fields as `(level, index)` pairs — the only non-fixed
field names this program ever produces — and `l` is `all_headers` in an
arbitrary iteration order.) -/
theorem column_order_deterministic (ps : List (Nat × Nat)) (l : List PyStr)
    (hlv : ∀ p ∈ ps, p.1 = 1 ∨ p.1 = 2)
    (hperm : l.Perm (fixedCols ++ ps.map (fun p => hname p.1 p.2))) :
    column_order l = fixedCols ++ (sortPairs ps).map (fun p => hname p.1 p.2) := by
  unfold column_order
  congr 1
  have hff : fixedCols.filter (fun c => !(containsStr fixedCols c)) = [] := by decide
  have hmf : (ps.map (fun p => hname p.1 p.2)).filter
      (fun c => !(containsStr fixedCols c)) = ps.map (fun p => hname p.1 p.2) := by
    refine List.filter_eq_self.mpr ?_
    intro x hx
    obtain ⟨p, _, rfl⟩ := List.mem_map.mp hx
    rw [containsStr_fixed_hname]
    rfl
  have hfl : (l.filter (fun c => !(containsStr fixedCols c))).Perm
      (ps.map (fun p => hname p.1 p.2)) := by
    have := hperm.filter (fun c => !(containsStr fixedCols c))
    rwa [List.filter_append, hff, hmf, List.nil_append] at this
  have hmem : ∀ x ∈ sortLe keyLe (l.filter (fun c => !(containsStr fixedCols c))),
      ∃ p ∈ ps, x = hname p.1 p.2 := by
    intro x hx
    have := hfl.mem_iff.mp ((sortLe_perm keyLe _).mem_iff.mp hx)
    obtain ⟨p, hp, rfl⟩ := List.mem_map.mp this
    exact ⟨p, hp, rfl⟩
  refine sorted_perm_eq keyLe _ _ ?_ ?_ ?_ ?_
  · exact ((sortLe_perm keyLe _).trans hfl).trans
      ((sortPairs_perm ps).map (fun p => hname p.1 p.2)).symm
  · exact sortLe_pairwise keyLe keyLe_total keyLe_trans _
  · refine List.pairwise_map.mpr ?_
    have hsub : ∀ p ∈ sortPairs ps, p ∈ ps := fun p hp => (sortPairs_perm ps).subset hp
    refine List.Pairwise.imp_of_mem ?_ (sortPairs_pairwise ps)
    intro p q hp hq hpq
    rw [keyLe_hname p.1 q.1 p.2 q.2 (hlv p (hsub p hp)) (hlv q (hsub q hq))]
    exact hpq
  · intro x hx y hy hxy hyx
    obtain ⟨p, hp, rfl⟩ := hmem x hx
    obtain ⟨q, hq, rfl⟩ := hmem y hy
    rw [keyLe_hname p.1 q.1 p.2 q.2 (hlv p hp) (hlv q hq)] at hxy
    rw [keyLe_hname q.1 p.1 q.2 p.2 (hlv q hq) (hlv p hp)] at hyx
    have : p = q := pairLe_antisymm p q hxy hyx
    rw [this]

/-- Witness for C6: a shuffled header set containing `H1 - 2`, `H1 - 9`,
`H1 - 10` and `H2 - 1` is ordered with the fixed columns first and the
headings by level then numeric index (so `H1 - 10` after `H1 - 9`). -/
theorem column_order_deterministic_witness :
    column_order [hname 1 10, str "URL", str "Title", hname 2 1,
        str "META Description", str "Status code", hname 1 2, hname 1 9] =
      fixedCols ++ (sortPairs [(1, 10), (2, 1), (1, 2), (1, 9)]).map
        (fun p => hname p.1 p.2) :=
  column_order_deterministic [(1, 10), (2, 1), (1, 2), (1, 9)]
    [hname 1 10, str "URL", str "Title", hname 2 1,
     str "META Description", str "Status code", hname 1 2, hname 1 9]
    (by decide) (by decide)

